import Mathlib

/-!
Verification development for the Bitcraft inventory viewer (src/js/app.js).

The JavaScript source is shallowly embedded: each modelled function keeps its
source name, JS strings are `String` (the data is ASCII, where JS string
operations agree with character-list operations), JS numbers are `ℚ` with the
out-of-band values `NaN`, `±Infinity` and `-0` given explicit constructors
where the code distinguishes them, and JS reference semantics in the graph
decoder are made explicit with an addressed heap of cells.
-/

set_option maxHeartbeats 1600000

namespace BitcraftInventory

/-! ### JS string primitives -/

def jsStartsWith (s p : String) : Bool := p.toList.isPrefixOf s.toList

def jsEndsWith (s p : String) : Bool := p.toList.isSuffixOf s.toList

def jsIncludes (s p : String) : Bool := s.toList.tails.any (fun t => p.toList.isPrefixOf t)

def dropLastChars (s : String) (n : Nat) : String := ⟨s.toList.take (s.toList.length - n)⟩

def dropFirstChars (s : String) (n : Nat) : String := ⟨s.toList.drop n⟩

/-- JS `String.prototype.toLowerCase` (ASCII data). -/
def jsToLower (s : String) : String := ⟨s.toList.map Char.toLower⟩

/-- JS `String.prototype.trim` (the source strings are ASCII, where the JS
whitespace set and `Char.isWhitespace` agree). -/
def jsTrim (s : String) : String :=
  ⟨((s.toList.dropWhile Char.isWhitespace).reverse.dropWhile Char.isWhitespace).reverse⟩

/-! ### GraphDecoder (app.js `decodeSvelteKitData`, lines 244-306)

A slot of the serialized graph (`dataNode.data[i]`).  Numbers are literal
values; arrays and objects hold integer references to other slots. -/

inductive Slot where
  | str (s : String)
  | bool (b : Bool)
  | null
  | num (q : ℚ)
  | arr (refs : List Int)
  | obj (fields : List (String × Int))
deriving DecidableEq

/-- A hydrated value.  Composites (JS arrays/objects) are references into the
heap, making JS reference equality explicit: two occurrences of the same JS
object are two equal `ref` addresses. -/
inductive HValue where
  | undef
  | nan
  | posInf
  | negInf
  | negZero
  | str (s : String)
  | bool (b : Bool)
  | null
  | num (q : ℚ)
  | ref (addr : Nat)
deriving DecidableEq

/-- A heap cell: the mutable JS array or object being filled during hydration. -/
inductive Cell where
  | arrCell (elems : List HValue)
  | objCell (fields : List (String × HValue))
deriving DecidableEq

/-- The decoder's mutable state: `memo` models the JS `hydrated` array
(`new Array(data.length)`, so `memo.length = data.length`), `heap` the JS
object store. -/
structure DecodeState where
  memo : List (Option HValue)
  heap : List Cell
deriving DecidableEq

def initState (data : List Slot) : DecodeState :=
  ⟨List.replicate data.length none, []⟩

/-- `index in hydrated` / `hydrated[index]`. -/
def memoGet (st : DecodeState) (i : Nat) : Option HValue := st.memo.getD i none

/-- `hydrated[index] = value`. -/
def memoSet (st : DecodeState) (i : Nat) (v : HValue) : DecodeState :=
  ⟨st.memo.set i (some v), st.heap⟩

/-- `arr.push(...)` on the heap cell at `addr`. -/
def pushArr (st : DecodeState) (addr : Nat) (v : HValue) : DecodeState :=
  ⟨st.memo,
   match st.heap[addr]? with
   | some (Cell.arrCell es) => st.heap.set addr (Cell.arrCell (es ++ [v]))
   | _ => st.heap⟩

/-- `obj[key] = ...` on the heap cell at `addr`. -/
def pushObj (st : DecodeState) (addr : Nat) (key : String) (v : HValue) : DecodeState :=
  ⟨st.memo,
   match st.heap[addr]? with
   | some (Cell.objCell fs) => st.heap.set addr (Cell.objCell (fs ++ [(key, v)]))
   | _ => st.heap⟩

/-- The decoder's recursion is flattened into tasks so that `hydrate` is
structurally recursive on a fuel argument: `one i` is `hydrate(i)`,
`arrElems`/`objFields` are the element/property loops of the array and object
cases writing into the composite at `addr`. -/
inductive HTask where
  | one (index : Int)
  | arrElems (addr : Nat) (refs : List Int)
  | objFields (addr : Nat) (fields : List (String × Int))

/-- The inner `hydrate` of `decodeSvelteKitData`.  Fuel only bounds recursion
depth; `hydrate_total` below shows `slotsFuel data` is always enough.  The
list tasks return the dummy value `HValue.undef`; only their state is used. -/
def hydrate (data : List Slot) : Nat → HTask → DecodeState → Option (HValue × DecodeState)
  | 0, _, _ => none
  | _ + 1, HTask.arrElems _ [], st => some (HValue.undef, st)
  | fuel + 1, HTask.arrElems addr (r :: rs), st =>
    match hydrate data fuel (HTask.one r) st with
    | none => none
    | some (v, st1) => hydrate data fuel (HTask.arrElems addr rs) (pushArr st1 addr v)
  | _ + 1, HTask.objFields _ [], st => some (HValue.undef, st)
  | fuel + 1, HTask.objFields addr ((key, r) :: rest), st =>
    match hydrate data fuel (HTask.one r) st with
    | none => none
    | some (v, st1) => hydrate data fuel (HTask.objFields addr rest) (pushObj st1 addr key v)
  | fuel + 1, HTask.one index, st =>
    if index = -1 then some (HValue.undef, st)
    else if index = -3 then some (HValue.nan, st)
    else if index = -4 then some (HValue.posInf, st)
    else if index = -5 then some (HValue.negInf, st)
    else if index = -6 then some (HValue.negZero, st)
    else if 0 ≤ index then
      match memoGet st index.toNat with
      | some v => some (v, st)
      | none =>
        match data[index.toNat]? with
        | none => some (HValue.undef, st)
        | some (Slot.str s) => some (HValue.str s, memoSet st index.toNat (HValue.str s))
        | some (Slot.bool b) => some (HValue.bool b, memoSet st index.toNat (HValue.bool b))
        | some Slot.null => some (HValue.null, memoSet st index.toNat HValue.null)
        | some (Slot.num q) => some (HValue.num q, memoSet st index.toNat (HValue.num q))
        | some (Slot.arr refs) =>
          -- `const arr = []; hydrated[index] = arr;` with `arr` at the next heap address
          match hydrate data fuel (HTask.arrElems st.heap.length refs)
              ⟨st.memo.set index.toNat (some (HValue.ref st.heap.length)),
               st.heap ++ [Cell.arrCell []]⟩ with
          | none => none
          | some (_, st2) => some (HValue.ref st.heap.length, st2)
        | some (Slot.obj fields) =>
          -- `const obj = {}; hydrated[index] = obj;` with `obj` at the next heap address
          match hydrate data fuel (HTask.objFields st.heap.length fields)
              ⟨st.memo.set index.toNat (some (HValue.ref st.heap.length)),
               st.heap ++ [Cell.objCell []]⟩ with
          | none => none
          | some (_, st2) => some (HValue.ref st.heap.length, st2)
    else some (HValue.undef, st)

/-- Weight of one slot in the fuel bound: opening a composite costs two
nesting levels plus one per child reference. -/
def slotWeight : Slot → Nat
  | Slot.arr refs => 2 + refs.length
  | Slot.obj fields => 2 + fields.length
  | _ => 2

def slotsFuel (data : List Slot) : Nat := (data.map slotWeight).sum + 1

def slotWeightAt (data : List Slot) (i : Nat) : Nat :=
  match data[i]? with
  | some s => slotWeight s
  | none => 0

/-- The decreasing measure: total weight of the not-yet-memoized slots. -/
def mu (data : List Slot) (st : DecodeState) : Nat :=
  ∑ i in Finset.range data.length, (if memoGet st i = none then slotWeightAt data i else 0)

/-! The SvelteKit `__data.json` envelope (lines 244-251). -/

structure DataNode where
  ntype : String
  ndata : Option (List Slot)
deriving DecidableEq

structure SvelteDoc where
  nodes : Option (List (Option DataNode))
deriving DecidableEq

inductive DecodeResult where
  | nullResult
  | fuelExhausted
  | value (v : HValue) (st : DecodeState)
deriving DecidableEq

/-- `json.nodes.find(n => n && n.type === 'data' && n.data)`. -/
def findDataNode (nodes : List (Option DataNode)) : Option DataNode :=
  (nodes.find? (fun n =>
    match n with
    | some node => node.ntype == "data" && node.ndata.isSome
    | none => false)).join

/-- `decodeSvelteKitData(json)` (lines 244-306).  `nullResult` is the JS
`return null`; `fuelExhausted` is the model's fuel running out and is proved
unreachable. -/
def decodeSvelteKitData (json : Option SvelteDoc) : DecodeResult :=
  match json with
  | none => DecodeResult.nullResult
  | some doc =>
    match doc.nodes with
    | none => DecodeResult.nullResult
    | some nodes =>
      match findDataNode nodes with
      | none => DecodeResult.nullResult
      | some node =>
        match node.ndata with
        | none => DecodeResult.nullResult
        | some data =>
          match hydrate data (slotsFuel data) (HTask.one 0) (initState data) with
          | none => DecodeResult.fuelExhausted
          | some (v, st) => DecodeResult.value v st

/-! ### ItemNormalizer (app.js lines 467-681) -/

/-- A raw `tier` value as it arrives from the wire: JS
null/undefined, boolean, string, or a (finite) number. -/
inductive RawTier where
  | null
  | bool (b : Bool)
  | str (s : String)
  | num (q : ℚ)
deriving DecidableEq

/-- The `tierMap` of `normalizeTier` (lines 634-646), in source order. -/
def tierMap : List (String × ℚ) :=
  [("Primitive", 0), ("Basic", 1), ("Improved", 2), ("Quality", 3), ("Fine", 4),
   ("Superior", 5), ("Ornate", 6), ("Aurumite", 7), ("Celestium", 8),
   ("Currency", -1), ("Special", -1)]

/-- First table entry whose name the string contains (`tier.includes(name)`). -/
def findFirstIncl (s : String) : List (String × ℚ) → Option ℚ
  | [] => none
  | (name, n) :: rest => if jsIncludes s name then some n else findFirstIncl s rest

/-- Value of a nonempty digit string, as `parseInt` computes it. -/
def digitsToNat (l : List Char) : Nat :=
  l.foldl (fun a c => a * 10 + (c.toNat - 48)) 0

/-- The regex match `-?\d+` followed by `parseInt(match[0])`: the first
(optionally minus-signed) digit run of the string, scanning left to right. -/
def firstIntMatch : List Char → Option Int
  | [] => none
  | c :: rest =>
    if c.isDigit then some (digitsToNat (List.takeWhile Char.isDigit (c :: rest)) : Int)
    else if c = '-' then
      match rest with
      | [] => none
      | d :: tl =>
        if d.isDigit then some (-(digitsToNat (List.takeWhile Char.isDigit (d :: tl)) : Int))
        else firstIntMatch (d :: tl)
    else firstIntMatch rest

/-- `normalizeTier` (lines 620-667).  `none` is the JS `return null`. -/
def normalizeTier : RawTier → Option ℚ
  | RawTier.null => none
  | RawTier.bool _ => none
  | RawTier.str s =>
    match findFirstIncl s tierMap with
    | some n => some n
    | none => (firstIntMatch s.toList).map (fun z => (z : ℚ))
  | RawTier.num q => if -1 ≤ q ∧ q ≤ 8 then some q else none

/-- The raw-tier shapes the spec calls UNKNOWN: missing/null, boolean, a
number outside [-1, 8], or a string that neither names a tier nor contains a
digit run. -/
def tierUnknown : RawTier → Bool
  | RawTier.null => true
  | RawTier.bool _ => true
  | RawTier.num q => decide (q < -1 ∨ 8 < q)
  | RawTier.str s => (findFirstIncl s tierMap).isNone && (firstIntMatch s.toList).isNone

/-- The `tierPrefixes` table of `deriveTierFromName` (lines 527-553), in
source order. -/
def tierPrefixTable : List (String × ℚ) :=
  [("Rough", 0), ("Primitive", 0), ("Basic", 1), ("Simple", 2), ("Improved", 2),
   ("Sturdy", 3), ("Quality", 3), ("Infused", 3), ("Fine", 4), ("Essential", 4),
   ("Superior", 5), ("Exquisite", 5), ("Succulent", 5), ("Peerless", 6),
   ("Ornate", 7), ("Ambrosial", 6), ("Flavorful", 7), ("Aurumite", 7),
   ("Pristine", 8), ("Celestium", 8), ("Luminite", 5), ("Rathium", 6),
   ("Zesty", 3), ("Plain", 0), ("Novice", 2)]

/-- First table entry whose word plus a space starts the name. -/
def findPrefixTier (name : String) : List (String × ℚ) → Option ℚ
  | [] => none
  | (p, t) :: rest => if jsStartsWith name (p ++ " ") then some t else findPrefixTier name rest

/-- `deriveTierFromName` (lines 525-567). -/
def deriveTierFromName (name : String) : ℚ :=
  match findPrefixTier name tierPrefixTable with
  | some t => t
  | none =>
    if jsIncludes name "Hex Coin" then -1
    else if jsIncludes name "Ancient Metal" then -1
    else 0

/-- The `tierPrefixes` list of `getBaseItemName` (lines 508-515), in source
order (it differs from the `deriveTierFromName` table's order). -/
def basePrefixTable : List String :=
  ["Rough", "Primitive", "Basic", "Simple", "Improved", "Sturdy",
   "Quality", "Infused", "Fine", "Essential", "Superior", "Exquisite",
   "Succulent", "Peerless", "Ornate", "Ambrosial", "Flavorful",
   "Aurumite", "Pristine", "Celestium", "Luminite", "Rathium",
   "Zesty", "Plain", "Novice"]

/-- `getBaseItemName` (lines 508-523): strip a leading tier-prefix word. -/
def getBaseItemName (name : String) : String :=
  match basePrefixTable.find? (fun p => jsStartsWith name (p ++ " ")) with
  | some p => dropFirstChars name (p.toList.length + 1)
  | none => name

/-- The `skipPrefixes` of `shouldSkipItem` (lines 597-608). -/
def skipPrefixTable : List String :=
  ["Professional", "Collectible", "Adept", "Apprentice", "Novice",
   "Expert", "Master", "Grandmaster", "Legendary", "Mythical"]

/-- `shouldSkipItem` (lines 595-618). -/
def shouldSkipItem (name : String) : Bool :=
  skipPrefixTable.any (fun p => jsStartsWith name (p ++ " "))

/-- `normalizeRarity` (lines 669-681).  `none` models a missing or non-string
rarity; `some ""` is the falsy empty string, which also yields "Common". -/
def normalizeRarity : Option String → String
  | none => "Common"
  | some r0 =>
    if r0 = "" then "Common"
    else
      let r := jsTrim r0
      if jsIncludes r "Common" then "Common"
      else if jsIncludes r "Uncommon" then "Uncommon"
      else if jsIncludes r "Rare" then "Rare"
      else if jsIncludes r "Epic" then "Epic"
      else if jsIncludes r "Legendary" then "Legendary"
      else if jsIncludes r "Mythic" then "Mythic"
      else r

/-- A `NormalizedItem` as pushed by `extractItemFromDetails` (lines 494-503);
`playerName` is attached later by `getAllItems`, `fromPackage` by package
expansion. -/
structure Item where
  name : String
  tier : ℚ
  rarity : String
  count : ℚ
  playerId : String
  location : String
  baseItem : String
  tag : String
  playerName : String := ""
  fromPackage : Bool := false
deriving DecidableEq

/-- The loosely-typed record `extractItemFromDetails` consumes.  `some ""`
models a present-but-falsy empty string. -/
structure ItemDetails where
  name : Option String := none
  itemName : Option String := none
  tier : RawTier := RawTier.null
  rarityStr : Option String := none
  rarity : Option String := none
  tag : Option String := none
deriving DecidableEq

/-- JS `a || b` on strings: the empty string is falsy. -/
def jsOrStr (a b : Option String) : Option String :=
  match a with
  | some s => if s = "" then b else some s
  | none => b

/-- Lines 481-486: `normalizeTier` with `deriveTierFromName` fallback. -/
def assignedTier (raw : RawTier) (name : String) : ℚ :=
  (normalizeTier raw).getD (deriveTierFromName name)

/-- `extractItemFromDetails` (lines 467-505).  `none` models the silent
return (the record is skipped). -/
def extractItemFromDetails (d : ItemDetails) (quantity : ℚ) (playerId location : String) :
    Option Item :=
  match jsOrStr d.name d.itemName with
  | none => none
  | some name =>
    if name = "" then none
    else if shouldSkipItem name then none
    else some
      { name := name
        tier := assignedTier d.tier name
        rarity := normalizeRarity (jsOrStr d.rarityStr d.rarity)
        count := quantity
        playerId := playerId
        location := location
        baseItem := getBaseItemName name
        tag := match d.tag with
          | some t => if t = "" then "Other" else t
          | none => "Other" }

/-! ### Pocket quantity validation (app.js lines 430-440) -/

/-- A raw pocket `quantity`: a finite number, `NaN`, a string, or anything
else (null, undefined, boolean, object). -/
inductive RawQuantity where
  | num (q : ℚ)
  | nan
  | str (s : String)
  | other
deriving DecidableEq

/-- A JS number that survived validation: finite or `NaN`. -/
inductive JSNumber where
  | fin (q : ℚ)
  | nan
deriving DecidableEq

/-- Lines 431-440: a number falls through to `if (quantity < 1) continue`
(a comparison that is false for `NaN`); a digit-only string is `parseInt`ed
and then range-checked; everything else is skipped (`none`). -/
def validateQuantity : RawQuantity → Option JSNumber
  | RawQuantity.num q => if q < 1 then none else some (JSNumber.fin q)
  | RawQuantity.nan => some JSNumber.nan
  | RawQuantity.str s =>
    if s ≠ "" ∧ s.toList.all Char.isDigit then
      if (digitsToNat s.toList : ℚ) < 1 then none
      else some (JSNumber.fin (digitsToNat s.toList))
    else none
  | RawQuantity.other => none

/-! ### PackageExpander (app.js lines 13-36, 832-944) -/

/-- The `PACKAGE_CONTENTS` table (lines 13-36), in source order. -/
def PACKAGE_CONTENTS : List (String × ℚ) :=
  [("Filet Package", 500), ("Brick Package", 100), ("Clay Lump Package", 500),
   ("Plank Package", 100), ("Cloth Package", 100), ("Pebbles Package", 1000),
   ("Raw Meat Package", 500), ("Bark Package", 500), ("Tannin Package", 500),
   ("Ingot Package", 100), ("Fiber Package", 1000), ("Leather Package", 100),
   ("Raw Pelt Package", 100), ("Fish Oil Package", 500), ("Flower Package", 500),
   ("Pitch Package", 500), ("Rope Package", 100), ("Vial Package", 100),
   ("Parchment Package", 200), ("Pigment Package", 200), ("Ink Package", 200),
   ("Stone Carving Package", 100)]

/-- `getPackageInfo` (lines 832-851): `some (baseItemName, quantityPer)` for a
package, `none` otherwise. -/
def getPackageInfo (itemName : String) : Option (String × ℚ) :=
  if ¬ jsEndsWith itemName " Package" then none
  else
    match PACKAGE_CONTENTS.find? (fun e => jsEndsWith itemName e.1) with
    | some e => some (dropLastChars itemName 8, e.2)
    | none => none

/-- One entry of `this.players`: entityId, username and fetched item list. -/
structure Player where
  entityId : String
  username : String
  items : List Item
deriving DecidableEq

/-- The `tagMappings` of `inferTagForBaseItem` (lines 912-935), in source
order. -/
def tagMappings : List (String × String) :=
  [("filet", "Food"), ("brick", "Construction"), ("clay lump", "Construction"),
   ("plank", "Construction"), ("cloth", "Textile"), ("pebbles", "Construction"),
   ("raw meat", "Food"), ("bark", "Forestry"), ("tannin", "Leather"),
   ("ingot", "Smithing"), ("fiber", "Textile"), ("leather", "Leather"),
   ("raw pelt", "Leather"), ("fish oil", "Food"), ("flower", "Farming"),
   ("pitch", "Forestry"), ("rope", "Textile"), ("vial", "Alchemy"),
   ("parchment", "Scribing"), ("pigment", "Scribing"), ("ink", "Scribing"),
   ("stone carving", "Construction")]

/-- `inferTagForBaseItem` (lines 908-944). -/
def inferTagForBaseItem (itemName : String) : Option String :=
  (tagMappings.find? (fun e => jsIncludes (jsToLower (getBaseItemName itemName)) e.1)).map
    (fun e => e.2)

/-- `Map.set` on an insertion-ordered association list: replace in place or
append. -/
def mapSet (l : List (String × String)) (k v : String) : List (String × String) :=
  if l.any (fun e => e.1 == k) then l.map (fun e => if e.1 == k then (e.1, v) else e)
  else l ++ [(k, v)]

def mapGet (l : List (String × String)) (k : String) : Option String :=
  (l.find? (fun e => e.1 == k)).map (fun e => e.2)

/-- First pass of `getAllItems` (lines 857-872): tags of non-package items,
keyed by item name. -/
def collectBaseItemTags (players : List Player) : List (String × String) :=
  players.foldl
    (fun acc p =>
      p.items.foldl
        (fun acc2 item =>
          if ¬ jsEndsWith item.name " Package" ∧ item.tag ≠ "" then
            mapSet acc2 item.name item.tag
          else acc2)
        acc)
    []

/-- `getAllItems` (lines 853-905): all items tagged with their player's name,
followed by the synthetic contents of every recognized package when expansion
is enabled. -/
def getAllItems (expandPackages : Bool) (players : List Player) : List Item :=
  let allItems := players.flatMap (fun p => p.items.map (fun item => { item with playerName := p.username }))
  let baseItemTags := collectBaseItemTags players
  let packageContents :=
    if expandPackages then
      players.flatMap (fun p =>
        p.items.filterMap (fun item =>
          (getPackageInfo item.name).map (fun info =>
            { name := info.1
              tier := item.tier
              rarity := item.rarity
              count := item.count * info.2
              playerId := item.playerId
              location := item.location
              baseItem := getBaseItemName info.1
              tag := ((mapGet baseItemTags info.1).orElse
                        (fun _ => inferTagForBaseItem info.1)).getD item.tag
              playerName := p.username
              fromPackage := true })))
    else []
  allItems ++ packageContents

/-- `getFilteredItems` (lines 946-979).  The dropdown filters are modelled as
`Option`s (`none` = "all"); `search` is the already lowercased and trimmed
search box content ("" = empty). -/
def getFilteredItems (expandPackages : Bool) (players : List Player)
    (tierFilter : Option ℚ) (rarityFilter : Option String) (tagFilter : Option String)
    (search : String) : List Item :=
  let items := getAllItems expandPackages players
  let items := if expandPackages then items.filter (fun i => ¬ jsEndsWith i.name " Package") else items
  let items := match tierFilter with
    | some t => items.filter (fun i => i.tier == t)
    | none => items
  let items := match rarityFilter with
    | some r => items.filter (fun i => i.rarity == r)
    | none => items
  let items := match tagFilter with
    | some t => items.filter (fun i => i.tag == t)
    | none => items
  if search ≠ "" then items.filter (fun i => jsIncludes (jsToLower i.name) search) else items

/-! ### InventoryAggregator (app.js lines 981-1011) -/

/-- An `AggregatedItem`: the spread of the first merged item plus the
`playerQuantities` map (insertion-ordered). -/
structure AggItem extends Item where
  playerQuantities : List (String × ℚ)
deriving DecidableEq

/-- The aggregation key template literal of lines 988-990. -/
def aggKey (groupByPlayer : Bool) (i : Item) : String :=
  if groupByPlayer then
    i.name ++ "|" ++ toString i.tier ++ "|" ++ i.rarity ++ "|" ++ i.playerName
  else
    i.name ++ "|" ++ toString i.tier ++ "|" ++ i.rarity

/-- `playerQuantities.set(name, (playerQuantities.get(name) || 0) + count)`. -/
def bumpQty (l : List (String × ℚ)) (p : String) (c : ℚ) : List (String × ℚ) :=
  if l.any (fun e => e.1 == p) then l.map (fun e => if e.1 == p then (e.1, e.2 + c) else e)
  else l ++ [(p, c)]

/-- `aggregateItems` (lines 981-1011) over an insertion-ordered map of
key/aggregate pairs. -/
def aggregateItems (groupByPlayer : Bool) (items : List Item) : List AggItem :=
  (items.foldl
    (fun acc item =>
      let key := aggKey groupByPlayer item
      if acc.any (fun e => e.1 == key) then
        acc.map (fun e =>
          if e.1 == key then
            (e.1, { e.2 with
                    count := e.2.count + item.count,
                    playerQuantities :=
                      if item.playerName ≠ "" then
                        bumpQty e.2.playerQuantities item.playerName item.count
                      else e.2.playerQuantities })
          else e)
      else
        acc ++ [(key,
          { item with
            playerQuantities :=
              if item.playerName ≠ "" then [(item.playerName, item.count)] else [] })])
    ([] : List (String × AggItem))).map (fun e => e.2)

/-! ### PlayerOrderBook cheapest-seller flags (app.js lines 1828-1872) -/

/-- A parsed sell order of the selected player (only the fields the
cheapest-seller computation reads). -/
structure SellOrder where
  itemId : String
  price : Int
  isCheapest : Option Bool := none
deriving DecidableEq

/-- Lines 1847-1856: fold starting at `Infinity` (modelled by `none`), taking
any price strictly below the best seen so far. -/
def cheapestPriceFold (prices : List Int) : Option Int :=
  prices.foldl
    (fun acc p =>
      match acc with
      | none => some p
      | some c => if p < c then some p else some c)
    none

/-- `calculateCheapestOrders` (lines 1828-1872): with `books` giving the full
order-book prices fetched per item id, each of the player's orders gets
`isCheapest = (order.price === cheapestPrice)` for its item's book.  The
per-item grouping loop of the source touches each order exactly once, with
exactly this per-order effect. -/
def calculateCheapestOrders (orders : List SellOrder) (books : String → List Int) :
    List SellOrder :=
  orders.map (fun o =>
    { o with isCheapest := some (cheapestPriceFold (books o.itemId) == some o.price) })

/-! ### Concrete fixtures used to instantiate the theorems -/

def widgetItem : Item :=
  { name := "Widget"
    tier := 0
    rarity := "Common"
    count := 1
    playerId := "p"
    location := "loc"
    baseItem := "Widget"
    tag := "Other" }

def widgetDetails (t : RawTier) : ItemDetails := { name := some "Widget", tier := t }

def mysteryItem : Item :=
  { name := "Mystery Package"
    tier := 1
    rarity := "Common"
    count := 4
    playerId := "p1"
    location := "Storage"
    baseItem := "Mystery Package"
    tag := "Other" }

def clayPackageItem : Item :=
  { name := "Simple Clay Lump Package"
    tier := 2
    rarity := "Common"
    count := 3
    playerId := "p1"
    location := "Storage"
    baseItem := "Clay Lump Package"
    tag := "Other" }

def ingotItem (pid pname : String) (c : ℚ) : Item :=
  { name := "Ingot"
    tier := 1
    rarity := "Common"
    count := c
    playerId := pid
    location := "L"
    baseItem := "Ingot"
    tag := "Smithing"
    playerName := pname }

/-- Key-collision pair for the aggregation key: both produce the joined key
"A|1|2|C" although name, tier and rarity all differ. -/
def pipeItemA : Item :=
  { name := "A|1"
    tier := 2
    rarity := "C"
    count := 5
    playerId := "x"
    location := "l"
    baseItem := "A|1"
    tag := "T"
    playerName := "P" }

def pipeItemB : Item :=
  { name := "A"
    tier := 1
    rarity := "2|C"
    count := 7
    playerId := "y"
    location := "l"
    baseItem := "A"
    tag := "T"
    playerName := "Q" }

/-! ### List helper lemmas -/

theorem getD_set_self {α : Type} (l : List α) (i : Nat) (a d : α) (h : i < l.length) :
    (l.set i a).getD i d = a := by
  induction l generalizing i with
  | nil => simp at h
  | cons x t ih =>
    cases i with
    | zero => rfl
    | succ j => simpa using ih j (by simpa using h)

theorem getD_set_ne {α : Type} (l : List α) (i j : Nat) (a d : α) (h : i ≠ j) :
    (l.set i a).getD j d = l.getD j d := by
  induction l generalizing i j with
  | nil => simp
  | cons x t ih =>
    cases i with
    | zero => cases j with
      | zero => exact absurd rfl h
      | succ j2 => rfl
    | succ i2 => cases j with
      | zero => rfl
      | succ j2 => simpa using ih i2 j2 (by omega)

theorem getD_replicate {α : Type} (n i : Nat) (d : α) : (List.replicate n d).getD i d = d := by
  induction n generalizing i with
  | zero => simp
  | succ m ih =>
    cases i with
    | zero => rfl
    | succ j => exact ih j

theorem getD_len_le {α : Type} (l : List α) (i : Nat) (d : α) (h : l.length ≤ i) :
    l.getD i d = d := by
  induction l generalizing i with
  | nil => simp
  | cons x t ih =>
    cases i with
    | zero => simp at h
    | succ j => simpa using ih j (by simpa using h)

theorem get?_some_lt {α : Type} (l : List α) (i : Nat) (a : α) (h : l[i]? = some a) :
    i < l.length := by
  induction l generalizing i with
  | nil => simp at h
  | cons x t ih =>
    cases i with
    | zero => simp
    | succ j => simpa using ih j (by simpa using h)

/-! ### Fuel sufficiency for the graph decoder -/

theorem mu_pushArr (data : List Slot) (st : DecodeState) (addr : Nat) (v : HValue) :
    mu data (pushArr st addr v) = mu data st := rfl

theorem mu_pushObj (data : List Slot) (st : DecodeState) (addr : Nat) (key : String) (v : HValue) :
    mu data (pushObj st addr key v) = mu data st := rfl

/-- Memoizing slot `i` removes exactly its weight from the measure; the heap
part of the new state is irrelevant. -/
theorem mu_set_split (data : List Slot) (st : DecodeState) (i : Nat) (v : HValue)
    (heap2 : List Cell) (hlen : st.memo.length = data.length) (hi : i < data.length)
    (hnone : memoGet st i = none) :
    mu data st = mu data ⟨st.memo.set i (some v), heap2⟩ + slotWeightAt data i := by
  have hmem : i ∈ Finset.range data.length := Finset.mem_range.mpr hi
  unfold mu
  rw [← Finset.add_sum_erase _ _ hmem, ← Finset.add_sum_erase _ _ hmem]
  have h1 : memoGet st i = none := hnone
  have h2 : memoGet (⟨st.memo.set i (some v), heap2⟩ : DecodeState) i = some v := by
    unfold memoGet
    exact getD_set_self st.memo i (some v) none (by omega)
  rw [if_pos h1, if_neg (by simp [h2])]
  have h3 : ∀ j ∈ (Finset.range data.length).erase i,
      (if memoGet (⟨st.memo.set i (some v), heap2⟩ : DecodeState) j = none
       then slotWeightAt data j else 0) =
      (if memoGet st j = none then slotWeightAt data j else 0) := by
    intro j hj
    have hne : j ≠ i := (Finset.mem_erase.mp hj).1
    have : memoGet (⟨st.memo.set i (some v), heap2⟩ : DecodeState) j = memoGet st j := by
      unfold memoGet
      exact getD_set_ne st.memo i j (some v) none (fun he => hne he.symm)
    rw [this]
  rw [Finset.sum_congr rfl h3]
  omega

theorem slotWeightAt_le_mu (data : List Slot) (st : DecodeState) (i : Nat)
    (hi : i < data.length) (hnone : memoGet st i = none) :
    slotWeightAt data i ≤ mu data st := by
  have h := Finset.single_le_sum
    (f := fun j => if memoGet st j = none then slotWeightAt data j else 0)
    (fun j _ => Nat.zero_le _) (Finset.mem_range.mpr hi)
  simpa [mu, hnone] using h

/-- With fuel exceeding the remaining measure (plus the pending child count
for list tasks), `hydrate` returns a value, keeps the memo length, and never
increases the measure.  This is the cycle-safety argument of the source: a
composite is memoized before its children are resolved, so the unmemoized
weight strictly shrinks at every composite opening. -/
theorem hydrate_total (data : List Slot) : ∀ fuel : Nat,
    (∀ (index : Int) (st : DecodeState), st.memo.length = data.length →
      mu data st < fuel →
      ∃ v st2, hydrate data fuel (HTask.one index) st = some (v, st2) ∧
        st2.memo.length = data.length ∧ mu data st2 ≤ mu data st) ∧
    (∀ (refs : List Int) (addr : Nat) (st : DecodeState), st.memo.length = data.length →
      mu data st + refs.length < fuel →
      ∃ v st2, hydrate data fuel (HTask.arrElems addr refs) st = some (v, st2) ∧
        st2.memo.length = data.length ∧ mu data st2 ≤ mu data st) ∧
    (∀ (fields : List (String × Int)) (addr : Nat) (st : DecodeState),
      st.memo.length = data.length → mu data st + fields.length < fuel →
      ∃ v st2, hydrate data fuel (HTask.objFields addr fields) st = some (v, st2) ∧
        st2.memo.length = data.length ∧ mu data st2 ≤ mu data st) := by
  intro fuel
  induction fuel with
  | zero =>
    refine ⟨?_, ?_, ?_⟩
    · intro index st hlen hfuel; omega
    · intro refs addr st hlen hfuel; omega
    · intro fields addr st hlen hfuel; omega
  | succ fuel ih =>
    obtain ⟨ihOne, ihArr, ihObj⟩ := ih
    refine ⟨?_, ?_, ?_⟩
    · -- the `one index` task
      intro index st hlen hfuel
      simp only [hydrate]
      split_ifs with h1 h2 h3 h4 h5 h6
      · exact ⟨HValue.undef, st, rfl, hlen, Nat.le_refl _⟩
      · exact ⟨HValue.nan, st, rfl, hlen, Nat.le_refl _⟩
      · exact ⟨HValue.posInf, st, rfl, hlen, Nat.le_refl _⟩
      · exact ⟨HValue.negInf, st, rfl, hlen, Nat.le_refl _⟩
      · exact ⟨HValue.negZero, st, rfl, hlen, Nat.le_refl _⟩
      · -- 0 ≤ index
        rcases hmg : memoGet st index.toNat with _ | v
        · rcases hget : data[index.toNat]? with _ | s
          · exact ⟨HValue.undef, st, rfl, hlen, Nat.le_refl _⟩
          · have hi : index.toNat < data.length := get?_some_lt data index.toNat s hget
            cases s with
            | str s =>
              refine ⟨HValue.str s, memoSet st index.toNat (HValue.str s), rfl, ?_, ?_⟩
              · simpa [memoSet] using hlen
              · have := mu_set_split data st index.toNat (HValue.str s) st.heap hlen hi hmg
                unfold memoSet
                omega
            | bool b =>
              refine ⟨HValue.bool b, memoSet st index.toNat (HValue.bool b), rfl, ?_, ?_⟩
              · simpa [memoSet] using hlen
              · have := mu_set_split data st index.toNat (HValue.bool b) st.heap hlen hi hmg
                unfold memoSet
                omega
            | null =>
              refine ⟨HValue.null, memoSet st index.toNat HValue.null, rfl, ?_, ?_⟩
              · simpa [memoSet] using hlen
              · have := mu_set_split data st index.toNat HValue.null st.heap hlen hi hmg
                unfold memoSet
                omega
            | num q =>
              refine ⟨HValue.num q, memoSet st index.toNat (HValue.num q), rfl, ?_, ?_⟩
              · simpa [memoSet] using hlen
              · have := mu_set_split data st index.toNat (HValue.num q) st.heap hlen hi hmg
                unfold memoSet
                omega
            | arr refs =>
              have hw : slotWeightAt data index.toNat = 2 + refs.length := by
                simp [slotWeightAt, hget, slotWeight]
              have hsplit := mu_set_split data st index.toNat (HValue.ref st.heap.length)
                (st.heap ++ [Cell.arrCell []]) hlen hi hmg
              have hlen1 : (st.memo.set index.toNat
                  (some (HValue.ref st.heap.length))).length = data.length := by
                simpa using hlen
              have hfuel1 : mu data ⟨st.memo.set index.toNat
                  (some (HValue.ref st.heap.length)), st.heap ++ [Cell.arrCell []]⟩ +
                  refs.length < fuel := by omega
              obtain ⟨v1, st2, heq, hlen2, hle⟩ :=
                ihArr refs st.heap.length
                  ⟨st.memo.set index.toNat (some (HValue.ref st.heap.length)),
                   st.heap ++ [Cell.arrCell []]⟩ hlen1 hfuel1
              refine ⟨HValue.ref st.heap.length, st2, ?_, hlen2, by omega⟩
              show (match hydrate data fuel (HTask.arrElems st.heap.length refs)
                  ⟨st.memo.set index.toNat (some (HValue.ref st.heap.length)),
                   st.heap ++ [Cell.arrCell []]⟩ with
                | none => none
                | some (_, st2) => some (HValue.ref st.heap.length, st2)) =
                some (HValue.ref st.heap.length, st2)
              rw [heq]
            | obj fields =>
              have hw : slotWeightAt data index.toNat = 2 + fields.length := by
                simp [slotWeightAt, hget, slotWeight]
              have hsplit := mu_set_split data st index.toNat (HValue.ref st.heap.length)
                (st.heap ++ [Cell.objCell []]) hlen hi hmg
              have hlen1 : (st.memo.set index.toNat
                  (some (HValue.ref st.heap.length))).length = data.length := by
                simpa using hlen
              have hfuel1 : mu data ⟨st.memo.set index.toNat
                  (some (HValue.ref st.heap.length)), st.heap ++ [Cell.objCell []]⟩ +
                  fields.length < fuel := by omega
              obtain ⟨v1, st2, heq, hlen2, hle⟩ :=
                ihObj fields st.heap.length
                  ⟨st.memo.set index.toNat (some (HValue.ref st.heap.length)),
                   st.heap ++ [Cell.objCell []]⟩ hlen1 hfuel1
              refine ⟨HValue.ref st.heap.length, st2, ?_, hlen2, by omega⟩
              show (match hydrate data fuel (HTask.objFields st.heap.length fields)
                  ⟨st.memo.set index.toNat (some (HValue.ref st.heap.length)),
                   st.heap ++ [Cell.objCell []]⟩ with
                | none => none
                | some (_, st2) => some (HValue.ref st.heap.length, st2)) =
                some (HValue.ref st.heap.length, st2)
              rw [heq]
        · exact ⟨v, st, rfl, hlen, Nat.le_refl _⟩
      · exact ⟨HValue.undef, st, rfl, hlen, Nat.le_refl _⟩
    · -- the `arrElems` task
      intro refs
      induction refs with
      | nil =>
        intro addr st hlen hfuel
        exact ⟨HValue.undef, st, rfl, hlen, Nat.le_refl _⟩
      | cons r rs ihrs =>
        intro addr st hlen hfuel
        have hfr : mu data st < fuel := by
          simp only [List.length_cons] at hfuel
          omega
        obtain ⟨v, st1, heq1, hlen1, hle1⟩ := ihOne r st hlen hfr
        simp only [hydrate]
        rw [heq1]
        have hlenp : (pushArr st1 addr v).memo.length = data.length := hlen1
        have hfp : mu data (pushArr st1 addr v) + rs.length < fuel := by
          rw [mu_pushArr]
          simp only [List.length_cons] at hfuel
          omega
        obtain ⟨v2, st2, heq2, hlen2, hle2⟩ := ihArr rs addr (pushArr st1 addr v) hlenp hfp
        refine ⟨v2, st2, ?_, hlen2, ?_⟩
        · show hydrate data fuel (HTask.arrElems addr rs) (pushArr st1 addr v) = some (v2, st2)
          exact heq2
        · have := mu_pushArr data st1 addr v
          omega
    · -- the `objFields` task
      intro fields
      induction fields with
      | nil =>
        intro addr st hlen hfuel
        exact ⟨HValue.undef, st, rfl, hlen, Nat.le_refl _⟩
      | cons kr rest ihrest =>
        obtain ⟨key, r⟩ := kr
        intro addr st hlen hfuel
        have hfr : mu data st < fuel := by
          simp only [List.length_cons] at hfuel
          omega
        obtain ⟨v, st1, heq1, hlen1, hle1⟩ := ihOne r st hlen hfr
        simp only [hydrate]
        rw [heq1]
        have hlenp : (pushObj st1 addr key v).memo.length = data.length := hlen1
        have hfp : mu data (pushObj st1 addr key v) + rest.length < fuel := by
          rw [mu_pushObj]
          simp only [List.length_cons] at hfuel
          omega
        obtain ⟨v2, st2, heq2, hlen2, hle2⟩ := ihObj rest addr (pushObj st1 addr key v) hlenp hfp
        refine ⟨v2, st2, ?_, hlen2, ?_⟩
        · show hydrate data fuel (HTask.objFields addr rest) (pushObj st1 addr key v) = some (v2, st2)
          exact heq2
        · have := mu_pushObj data st1 addr key v
          omega

theorem initState_memo_length (data : List Slot) :
    (initState data).memo.length = data.length := by
  simp [initState]

theorem sum_slotWeightAt (data : List Slot) :
    ∑ i in Finset.range data.length, slotWeightAt data i = (data.map slotWeight).sum := by
  induction data with
  | nil => simp
  | cons s t ih =>
    have h0 : slotWeightAt (s :: t) 0 = slotWeight s := by simp [slotWeightAt]
    have hs : ∀ i : Nat, slotWeightAt (s :: t) (i + 1) = slotWeightAt t i := fun i => by
      simp [slotWeightAt]
    simp only [List.length_cons, Finset.sum_range_succ']
    simp only [hs, h0, ih, List.map_cons, List.sum_cons]
    omega

theorem mu_initState (data : List Slot) :
    mu data (initState data) = (data.map slotWeight).sum := by
  unfold mu
  have h : ∀ i ∈ Finset.range data.length,
      (if memoGet (initState data) i = none then slotWeightAt data i else 0) =
      slotWeightAt data i := by
    intro i _
    have : memoGet (initState data) i = none := getD_replicate data.length i none
    rw [if_pos this]
  rw [Finset.sum_congr rfl h]
  exact sum_slotWeightAt data

/-- From the initial state, fuel `slotsFuel data` always suffices, whatever
graph `data` describes and whichever index is hydrated first. -/
theorem hydrate_init_some (data : List Slot) (index : Int) :
    ∃ v st2, hydrate data (slotsFuel data) (HTask.one index) (initState data) = some (v, st2) := by
  have hfuel : mu data (initState data) < slotsFuel data := by
    rw [mu_initState]
    simp [slotsFuel]
  obtain ⟨v, st2, heq, _, _⟩ :=
    (hydrate_total data (slotsFuel data)).1 index (initState data)
      (initState_memo_length data) hfuel
  exact ⟨v, st2, heq⟩

/-- C1: decoding terminates on every graph, cyclic ones included, and a cycle
back to the root hydrates to a reference-equal pointer to the root.  The
first conjunct is termination for arbitrary slot graphs; the second shows the
decoder never reports fuel exhaustion; the last two trace the transitive
root cycle (root object → array slot 1 → root) and the direct self-cycle,
whose decoded heaps contain `ref 0` back at the root's own address. -/
theorem decode_terminates_and_resolves_cycles :
    (∀ data : List Slot, ∃ v st2,
      hydrate data (slotsFuel data) (HTask.one 0) (initState data) = some (v, st2)) ∧
    (∀ json : Option SvelteDoc, decodeSvelteKitData json ≠ DecodeResult.fuelExhausted) ∧
    (∀ k : String,
      decodeSvelteKitData
          (some ⟨some [some ⟨"data", some [Slot.obj [(k, 1)], Slot.arr [0]]⟩]⟩) =
        DecodeResult.value (HValue.ref 0)
          ⟨[some (HValue.ref 0), some (HValue.ref 1)],
           [Cell.objCell [(k, HValue.ref 1)], Cell.arrCell [HValue.ref 0]]⟩) ∧
    (∀ k : String,
      decodeSvelteKitData (some ⟨some [some ⟨"data", some [Slot.obj [(k, 0)]]⟩]⟩) =
        DecodeResult.value (HValue.ref 0)
          ⟨[some (HValue.ref 0)], [Cell.objCell [(k, HValue.ref 0)]]⟩) := by
  refine ⟨fun data => hydrate_init_some data 0, ?_, fun k => rfl, fun k => rfl⟩
  intro json
  cases json with
  | none => simp [decodeSvelteKitData]
  | some doc =>
    cases hnodes : doc.nodes with
    | none => simp [decodeSvelteKitData, hnodes]
    | some nodes =>
      cases hfind : findDataNode nodes with
      | none => simp [decodeSvelteKitData, hnodes, hfind]
      | some node =>
        cases hnd : node.ndata with
        | none => simp [decodeSvelteKitData, hnodes, hfind, hnd]
        | some data =>
          obtain ⟨v, st2, heq⟩ := hydrate_init_some data 0
          simp [decodeSvelteKitData, hnodes, hfind, hnd, heq]

/-- C9: whenever the document is absent, has no `nodes`, or has no node with
`type === 'data'` and a truthy `data`, decoding returns the JS `null` (the
model's `nullResult`); the embedding is a total function, so no exception is
possible on this path. -/
theorem decode_null_on_missing_data (json : Option SvelteDoc)
    (h : json = none ∨ (∃ doc, json = some doc ∧ doc.nodes = none) ∨
      (∃ doc nodes, json = some doc ∧ doc.nodes = some nodes ∧
        ∀ n ∈ nodes, ∀ node, n = some node → ¬(node.ntype = "data" ∧ node.ndata.isSome))) :
    decodeSvelteKitData json = DecodeResult.nullResult := by
  rcases h with h | ⟨doc, hj, hn⟩ | ⟨doc, nodes, hj, hn, hall⟩
  · rw [h]; rfl
  · rw [hj]; simp [decodeSvelteKitData, hn]
  · rw [hj]
    have hfind : findDataNode nodes = none := by
      unfold findDataNode
      have : nodes.find? (fun n =>
          match n with
          | some node => node.ntype == "data" && node.ndata.isSome
          | none => false) = none := by
        rw [List.find?_eq_none]
        intro n hmem
        cases n with
        | none => simp
        | some node =>
          have := hall (some node) hmem node rfl
          simp only [Bool.and_eq_true, beq_iff_eq]
          intro hcontra
          exact this ⟨hcontra.1, hcontra.2⟩
      rw [this]
      rfl
    simp [decodeSvelteKitData, hn, hfind]

/-- Closed instance of `decode_null_on_missing_data`: a null document decodes
to null. -/
theorem decode_null_on_missing_data_witness :
    decodeSvelteKitData none = DecodeResult.nullResult :=
  decode_null_on_missing_data none (Or.inl rfl)

/-- C10: hydration is total on every integer index.  The five sentinel
indices return their fixed out-of-band values for every graph and every
state; any other negative index, and any index at or past the end of the
slots array, silently resolves to `undefined` without touching the state;
and from the initial state every integer index hydrates successfully. -/
theorem hydrate_sentinels_and_out_of_range :
    (∀ (data : List Slot) (fuel : Nat) (st : DecodeState),
      hydrate data (fuel + 1) (HTask.one (-1)) st = some (HValue.undef, st) ∧
      hydrate data (fuel + 1) (HTask.one (-3)) st = some (HValue.nan, st) ∧
      hydrate data (fuel + 1) (HTask.one (-4)) st = some (HValue.posInf, st) ∧
      hydrate data (fuel + 1) (HTask.one (-5)) st = some (HValue.negInf, st) ∧
      hydrate data (fuel + 1) (HTask.one (-6)) st = some (HValue.negZero, st)) ∧
    (∀ (data : List Slot) (fuel : Nat) (st : DecodeState) (index : Int),
      index < 0 → index ≠ -1 → index ≠ -3 → index ≠ -4 → index ≠ -5 → index ≠ -6 →
      hydrate data (fuel + 1) (HTask.one index) st = some (HValue.undef, st)) ∧
    (∀ (data : List Slot) (fuel : Nat) (st : DecodeState) (index : Int),
      st.memo.length = data.length → 0 ≤ index → data.length ≤ index.toNat →
      hydrate data (fuel + 1) (HTask.one index) st = some (HValue.undef, st)) ∧
    (∀ (data : List Slot) (index : Int), ∃ v st2,
      hydrate data (slotsFuel data) (HTask.one index) (initState data) = some (v, st2)) := by
  refine ⟨fun data fuel st => ⟨rfl, rfl, rfl, rfl, rfl⟩, ?_, ?_, fun data index => hydrate_init_some data index⟩
  · intro data fuel st index hneg h1 h3 h4 h5 h6
    have hnn : ¬ (0 ≤ index) := by omega
    simp only [hydrate]
    rw [if_neg h1, if_neg h3, if_neg h4, if_neg h5, if_neg h6, if_neg hnn]
  · intro data fuel st index hlen hpos hge
    have h1 : index ≠ -1 := by omega
    have h3 : index ≠ -3 := by omega
    have h4 : index ≠ -4 := by omega
    have h5 : index ≠ -5 := by omega
    have h6 : index ≠ -6 := by omega
    have hmg : memoGet st index.toNat = none := getD_len_le st.memo index.toNat none (by omega)
    have hget : data[index.toNat]? = none := List.getElem?_eq_none hge
    simp only [hydrate]
    rw [if_neg h1, if_neg h3, if_neg h4, if_neg h5, if_neg h6, if_pos hpos, hmg, hget]

/-- Closed instance of `hydrate_sentinels_and_out_of_range`: the unspecified
negative index `-2` and the past-the-end index `1` of a one-slot graph both
resolve to `undefined`. -/
theorem hydrate_sentinels_and_out_of_range_witness :
    hydrate [Slot.str "x"] 1 (HTask.one (-2)) (initState [Slot.str "x"]) =
      some (HValue.undef, initState [Slot.str "x"]) ∧
    hydrate [Slot.str "x"] 1 (HTask.one 1) (initState [Slot.str "x"]) =
      some (HValue.undef, initState [Slot.str "x"]) := by
  constructor
  · exact hydrate_sentinels_and_out_of_range.2.1 [Slot.str "x"] 0 (initState [Slot.str "x"]) (-2)
      (by decide) (by decide) (by decide) (by decide) (by decide) (by decide)
  · exact hydrate_sentinels_and_out_of_range.2.2.1 [Slot.str "x"] 0 (initState [Slot.str "x"]) 1
      (by decide) (by decide) (by decide)

/-! ### Tier normalization lemmas -/

theorem findPrefixTier_mem (name : String) :
    ∀ (tbl : List (String × ℚ)) (t : ℚ), findPrefixTier name tbl = some t →
      ∃ e ∈ tbl, e.2 = t := by
  intro tbl
  induction tbl with
  | nil => intro t h; simp [findPrefixTier] at h
  | cons e rest ih =>
    obtain ⟨p, t0⟩ := e
    intro t h
    simp only [findPrefixTier] at h
    split_ifs at h with hp
    · exact ⟨(p, t0), by simp, (Option.some.inj h)⟩
    · obtain ⟨e2, he2, ht⟩ := ih t h
      exact ⟨e2, by simp [he2], ht⟩

theorem findFirstIncl_mem (s : String) :
    ∀ (tbl : List (String × ℚ)) (t : ℚ), findFirstIncl s tbl = some t →
      ∃ e ∈ tbl, e.2 = t := by
  intro tbl
  induction tbl with
  | nil => intro t h; simp [findFirstIncl] at h
  | cons e rest ih =>
    obtain ⟨p, t0⟩ := e
    intro t h
    simp only [findFirstIncl] at h
    split_ifs at h with hp
    · exact ⟨(p, t0), by simp, (Option.some.inj h)⟩
    · obtain ⟨e2, he2, ht⟩ := ih t h
      exact ⟨e2, by simp [he2], ht⟩

theorem tierPrefixTable_range : ∀ e ∈ tierPrefixTable, -1 ≤ e.2 ∧ e.2 ≤ 8 := by decide

theorem tierMap_range : ∀ e ∈ tierMap, -1 ≤ e.2 ∧ e.2 ≤ 8 := by decide

theorem deriveTier_range (name : String) :
    -1 ≤ deriveTierFromName name ∧ deriveTierFromName name ≤ 8 := by
  unfold deriveTierFromName
  cases hf : findPrefixTier name tierPrefixTable with
  | some t =>
    obtain ⟨e, he, ht⟩ := findPrefixTier_mem name tierPrefixTable t hf
    rw [← ht]
    exact tierPrefixTable_range e he
  | none => split_ifs <;> norm_num

/-- Everything `assignedTier` can produce: a value in [-1, 8], except when a
string tier misses the name table and its first embedded integer is out of
range, in which case that integer is used unclamped. -/
theorem assignedTier_range (raw : RawTier) (name : String) :
    (-1 ≤ assignedTier raw name ∧ assignedTier raw name ≤ 8) ∨
    (∃ s z, raw = RawTier.str s ∧ findFirstIncl s tierMap = none ∧
      firstIntMatch s.toList = some z ∧ assignedTier raw name = (z : ℚ) ∧
      ((z : ℚ) < -1 ∨ 8 < (z : ℚ))) := by
  cases raw with
  | null => exact Or.inl (by simpa [assignedTier, normalizeTier] using deriveTier_range name)
  | bool b => exact Or.inl (by simpa [assignedTier, normalizeTier] using deriveTier_range name)
  | num q =>
    by_cases hq : -1 ≤ q ∧ q ≤ 8
    · refine Or.inl ?_
      have : assignedTier (RawTier.num q) name = q := by simp [assignedTier, normalizeTier, hq]
      rw [this]
      exact hq
    · exact Or.inl (by simpa [assignedTier, normalizeTier, hq] using deriveTier_range name)
  | str s =>
    cases hf : findFirstIncl s tierMap with
    | some n =>
      obtain ⟨e, he, ht⟩ := findFirstIncl_mem s tierMap n hf
      refine Or.inl ?_
      have : assignedTier (RawTier.str s) name = n := by
        simp [assignedTier, normalizeTier, hf]
      rw [this, ← ht]
      exact tierMap_range e he
    | none =>
      cases hm : firstIntMatch s.toList with
      | none =>
        have hm2 : firstIntMatch s.data = none := hm
        exact Or.inl
          (by simpa [assignedTier, normalizeTier, hf, hm, hm2] using deriveTier_range name)
      | some z =>
        have hm2 : firstIntMatch s.data = some z := hm
        have hval : assignedTier (RawTier.str s) name = (z : ℚ) := by
          simp [assignedTier, normalizeTier, hf, hm, hm2]
        by_cases hz : -1 ≤ (z : ℚ) ∧ (z : ℚ) ≤ 8
        · exact Or.inl (by rw [hval]; exact hz)
        · refine Or.inr ⟨s, z, rfl, hf, hm, hval, ?_⟩
          rcases not_and_or.mp hz with h | h
          · exact Or.inl (lt_of_not_le h)
          · exact Or.inr (lt_of_not_le h)

/-- C2 (amended): every emitted item's tier lies in [-1, 8] unless the raw
tier was a string that matched no tier name and whose embedded integer parse
is out of range; that unclamped integer is then used as the tier. -/
theorem extract_tier_range_spec (d : ItemDetails) (q : ℚ) (pid loc : String) (it : Item)
    (h : extractItemFromDetails d q pid loc = some it) :
    (-1 ≤ it.tier ∧ it.tier ≤ 8) ∨
    (∃ s z, d.tier = RawTier.str s ∧ findFirstIncl s tierMap = none ∧
      firstIntMatch s.toList = some z ∧ it.tier = (z : ℚ) ∧
      ((z : ℚ) < -1 ∨ 8 < (z : ℚ))) := by
  unfold extractItemFromDetails at h
  split at h
  · simp at h
  · rename_i name heqname
    split_ifs at h with h1 h2
    have htier : it.tier = assignedTier d.tier name := by
      rw [← Option.some.inj h]
    rw [htier]
    exact assignedTier_range d.tier name

/-- The C2 claim as frozen is false: the string tier "19998" is parsed
unclamped to 19998 ∉ [-1, 8], and the in-range number tier 5/2 is kept as a
non-integer tier. -/
theorem extract_tier_range_counterexample :
    ((extractItemFromDetails (widgetDetails (RawTier.str "19998")) 1 "p" "loc").map Item.tier =
        some 19998 ∧ ¬ ((19998 : ℚ) ≤ 8)) ∧
    ((extractItemFromDetails (widgetDetails (RawTier.num (Rat.mk' 5 2))) 1 "p" "loc").map
        Item.tier = some (Rat.mk' 5 2) ∧ (Rat.mk' 5 2 : ℚ).den ≠ 1) := by
  refine ⟨⟨?_, by norm_num⟩, ⟨?_, by decide⟩⟩
  · rfl
  · rfl

/-- Closed instance of `extract_tier_range_spec` at a boolean raw tier. -/
theorem extract_tier_range_spec_witness :
    (-1 ≤ widgetItem.tier ∧ widgetItem.tier ≤ 8) ∨
    (∃ s z, (RawTier.bool true) = RawTier.str s ∧ findFirstIncl s tierMap = none ∧
      firstIntMatch s.toList = some z ∧ widgetItem.tier = (z : ℚ) ∧
      ((z : ℚ) < -1 ∨ 8 < (z : ℚ))) :=
  extract_tier_range_spec (widgetDetails (RawTier.bool true)) 1 "p" "loc" widgetItem rfl

/-- C6: an UNKNOWN raw tier (missing, null, boolean, out-of-range number, or
digit-free unmatched string) makes the tier fall back to the name-derived
value; with no matching name prefix and no special-item substring the
fallback is 0; the two spec examples compute as claimed. -/
theorem tier_unknown_fallback_spec :
    (∀ (raw : RawTier) (name : String), tierUnknown raw = true →
      assignedTier raw name = deriveTierFromName name) ∧
    (∀ name : String, findPrefixTier name tierPrefixTable = none →
      jsIncludes name "Hex Coin" = false → jsIncludes name "Ancient Metal" = false →
      deriveTierFromName name = 0) ∧
    assignedTier (RawTier.num 19998) "Widget" = 0 ∧
    assignedTier RawTier.null "Simple Clay Lump" = 2 ∧
    normalizeRarity (some "Tier 2 Common") = "Common" := by
  refine ⟨?_, ?_, by decide, by decide, by decide⟩
  · intro raw name hu
    cases raw with
    | null => rfl
    | bool b => rfl
    | num q =>
      have hq : ¬ (-1 ≤ q ∧ q ≤ 8) := by
        simp only [tierUnknown, decide_eq_true_eq] at hu
        rcases hu with h | h
        · exact fun hc => absurd hc.1 (not_le.mpr h)
        · exact fun hc => absurd hc.2 (not_le.mpr h)
      simp [assignedTier, normalizeTier, hq]
    | str s =>
      simp only [tierUnknown, Bool.and_eq_true, Option.isNone_iff_eq_none] at hu
      have hm2 : firstIntMatch s.data = none := hu.2
      simp [assignedTier, normalizeTier, hu.1, hu.2, hm2]
  · intro name hf h1 h2
    unfold deriveTierFromName
    rw [hf]
    simp [h1, h2]

/-- Closed instance of `tier_unknown_fallback_spec` at a boolean raw tier. -/
theorem tier_unknown_fallback_spec_witness :
    tierUnknown (RawTier.bool true) = true ∧
    assignedTier (RawTier.bool true) "Widget" = deriveTierFromName "Widget" :=
  ⟨by decide, tier_unknown_fallback_spec.1 (RawTier.bool true) "Widget" (by decide)⟩

/-- C7 (amended): a quantity is accepted exactly when it is a JS number for
which `quantity < 1` is false — which includes every non-integer ≥ 1 and
`NaN`, since `NaN < 1` is false — or a nonempty digit-only string parsing to
an integer ≥ 1.  Every other shape is skipped, so every accepted finite count
is ≥ 1 and every string-parsed count is a positive integer, but non-integer
numeric counts are accepted rather than skipped. -/
theorem quantity_validation_spec :
    (∀ q : ℚ, q < 1 → validateQuantity (RawQuantity.num q) = none) ∧
    (∀ q : ℚ, ¬ (q < 1) → validateQuantity (RawQuantity.num q) = some (JSNumber.fin q)) ∧
    validateQuantity RawQuantity.nan = some JSNumber.nan ∧
    validateQuantity RawQuantity.other = none ∧
    (∀ s : String, ¬ (s ≠ "" ∧ s.toList.all Char.isDigit) →
      validateQuantity (RawQuantity.str s) = none) ∧
    (∀ (s : String) (c : ℚ), validateQuantity (RawQuantity.str s) = some (JSNumber.fin c) →
      1 ≤ c ∧ c.den = 1) ∧
    (∀ (r : RawQuantity) (c : ℚ), validateQuantity r = some (JSNumber.fin c) → 1 ≤ c) := by
  refine ⟨?_, ?_, rfl, rfl, ?_, ?_, ?_⟩
  · intro q hq; simp [validateQuantity, hq]
  · intro q hq; simp [validateQuantity, hq]
  · intro s hs; simp only [validateQuantity]; rw [if_neg hs]
  · intro s c h
    simp only [validateQuantity] at h
    split_ifs at h with h1 h2
    have hc : (digitsToNat s.toList : ℚ) = c := JSNumber.fin.inj (Option.some.inj h)
    refine ⟨?_, ?_⟩
    · rw [← hc]; exact le_of_not_lt h2
    · rw [← hc]; exact Rat.den_natCast _
  · intro r c h
    cases r with
    | num q =>
      simp only [validateQuantity] at h
      split_ifs at h with h1
      have hc : q = c := JSNumber.fin.inj (Option.some.inj h)
      rw [← hc]
      exact le_of_not_lt h1
    | nan => exact absurd (Option.some.inj h) (by simp)
    | str s =>
      simp only [validateQuantity] at h
      split_ifs at h with h1 h2
      have hc : (digitsToNat s.toList : ℚ) = c := JSNumber.fin.inj (Option.some.inj h)
      rw [← hc]
      exact le_of_not_lt h2
    | other => exact absurd h (by simp [validateQuantity])

/-- The C7 claim as frozen is false: the non-integer numeric quantity 5/2 is
accepted with count 5/2 (and `NaN` is accepted too, since `NaN < 1` is
false), instead of the record being skipped. -/
theorem quantity_validation_counterexample :
    validateQuantity (RawQuantity.num (Rat.mk' 5 2)) = some (JSNumber.fin (Rat.mk' 5 2)) ∧
    (Rat.mk' 5 2 : ℚ).den ≠ 1 ∧
    validateQuantity RawQuantity.nan = some JSNumber.nan := by
  refine ⟨by decide, by decide, rfl⟩

/-- Closed instance of `quantity_validation_spec`: the accepted numeric
quantity 3 is at least 1. -/
theorem quantity_validation_spec_witness :
    validateQuantity (RawQuantity.num 3) = some (JSNumber.fin 3) ∧ 1 ≤ (3 : ℚ) :=
  ⟨by decide, quantity_validation_spec.2.2.2.2.2.2 (RawQuantity.num 3) 3 (by decide)⟩

/-! ### Package table lemmas -/

theorem suffix_or_suffix {α : Type} (n a b : List α) (ha : a <:+ n) (hb : b <:+ n) :
    a <:+ b ∨ b <:+ a := by
  induction n with
  | nil =>
    rw [List.suffix_nil] at ha hb
    rw [ha, hb]
    exact Or.inl List.nil_suffix
  | cons x t ih =>
    rcases List.suffix_cons_iff.mp ha with ha1 | ha2
    · exact Or.inr (ha1 ▸ hb)
    · rcases List.suffix_cons_iff.mp hb with hb1 | hb2
      · exact Or.inl (hb1 ▸ (ha2.trans (List.suffix_cons x t)))
      · exact ih ha2 hb2

theorem jsEndsWith_iff (s p : String) : jsEndsWith s p = true ↔ p.toList <:+ s.toList := by
  simp [jsEndsWith, List.isSuffixOf_iff_suffix]

theorem jsEndsWith_trans (a b c : String) (h1 : jsEndsWith a b = true)
    (h2 : jsEndsWith b c = true) : jsEndsWith a c = true := by
  rw [jsEndsWith_iff] at h1 h2 ⊢
  exact h2.trans h1

/-- In a table whose suffixes are pairwise non-comparable, `find?` locates
exactly the (unique) entry whose suffix matches. -/
theorem find_suffix_entry :
    ∀ (tbl : List (String × ℚ)) (name sfx : String) (q : ℚ),
      tbl.Pairwise (fun e1 e2 => ¬ e1.1.toList <:+ e2.1.toList ∧ ¬ e2.1.toList <:+ e1.1.toList) →
      (sfx, q) ∈ tbl → jsEndsWith name sfx = true →
      tbl.find? (fun e => jsEndsWith name e.1) = some (sfx, q) := by
  intro tbl
  induction tbl with
  | nil => intro name sfx q _ hmem _; simp at hmem
  | cons e rest ih =>
    intro name sfx q hpw hmem hends
    rcases List.mem_cons.mp hmem with heq | hmem2
    · subst heq
      exact List.find?_cons_of_pos rest hends
    · have hpair := (List.pairwise_cons.mp hpw).1 (sfx, q) hmem2
      have hhead : ¬ (jsEndsWith name e.1 = true) := by
        intro hc
        have hp0 : e.1.toList <:+ name.toList := (jsEndsWith_iff name e.1).mp hc
        have hs : sfx.toList <:+ name.toList := (jsEndsWith_iff name sfx).mp hends
        rcases suffix_or_suffix name.toList e.1.toList sfx.toList hp0 hs with h | h
        · exact hpair.1 h
        · exact hpair.2 h
      rw [List.find?_cons_of_neg rest hhead]
      exact ih name sfx q (List.pairwise_cons.mp hpw).2 hmem2 hends

theorem packageTable_pairwise :
    PACKAGE_CONTENTS.Pairwise
      (fun e1 e2 => ¬ e1.1.toList <:+ e2.1.toList ∧ ¬ e2.1.toList <:+ e1.1.toList) := by
  decide

theorem packageTable_ends : ∀ e ∈ PACKAGE_CONTENTS, jsEndsWith e.1 " Package" = true := by
  decide

/-- A name ending in a table suffix is recognized as that entry's package. -/
theorem getPackageInfo_of_table (name sfx : String) (q : ℚ)
    (hmem : (sfx, q) ∈ PACKAGE_CONTENTS) (hends : jsEndsWith name sfx = true) :
    getPackageInfo name = some (dropLastChars name 8, q) := by
  have hpkg : jsEndsWith name " Package" = true :=
    jsEndsWith_trans name sfx " Package" hends (packageTable_ends (sfx, q) hmem)
  have hfind := find_suffix_entry PACKAGE_CONTENTS name sfx q packageTable_pairwise hmem hends
  unfold getPackageInfo
  rw [if_neg (by simp [hpkg]), hfind]

/-- C3 (amended): with package expansion active and the other filters at
their defaults, an item of `getAllItems` is kept in the displayed set iff its
name does not end in " Package" — whether or not the package table matches —
and a name matching no table suffix is never treated as a package (so the
non-matching " Package" item is excluded without a synthetic replacement). -/
theorem package_exclusion_spec (players : List Player) (i : Item) :
    (i ∈ getFilteredItems true players none none none "" ↔
      i ∈ getAllItems true players ∧ jsEndsWith i.name " Package" = false) ∧
    (∀ name : String, (∀ e ∈ PACKAGE_CONTENTS, jsEndsWith name e.1 = false) →
      getPackageInfo name = none) := by
  constructor
  · simp [getFilteredItems, List.mem_filter]
  · intro name h
    unfold getPackageInfo
    by_cases hp : jsEndsWith name " Package" = true
    · rw [if_neg (by simp [hp])]
      have hfind : PACKAGE_CONTENTS.find? (fun e => jsEndsWith name e.1) = none := by
        rw [List.find?_eq_none]
        intro e he
        simp [h e he]
      rw [hfind]
    · rw [if_pos (by simpa using hp)]

/-- The C3 claim as frozen is false: "Mystery Package" matches no entry of
the package table, so it is not a package and is not expanded, yet with
expansion active it is removed from the displayed set instead of remaining. -/
theorem package_exclusion_counterexample :
    getPackageInfo mysteryItem.name = none ∧
    jsEndsWith mysteryItem.name " Package" = true ∧
    getAllItems true [⟨"p1", "Alice", [mysteryItem]⟩] =
      [{ mysteryItem with playerName := "Alice" }] ∧
    getFilteredItems true [⟨"p1", "Alice", [mysteryItem]⟩] none none none "" = [] := by
  refine ⟨rfl, rfl, by decide, by decide⟩

/-- Closed instance of `package_exclusion_spec`: a name matching no table
entry is not a package. -/
theorem package_exclusion_spec_witness : getPackageInfo "Widget" = none :=
  (package_exclusion_spec [] widgetItem).2 "Widget" (by decide)

/-- One recognized package item in one player's list expands to exactly one
synthetic item appended after the original. -/
theorem getAllItems_single_package (entityId username : String) (item : Item) (sfx : String)
    (q : ℚ) (hmem : (sfx, q) ∈ PACKAGE_CONTENTS) (hends : jsEndsWith item.name sfx = true) :
    getAllItems true [⟨entityId, username, [item]⟩] =
      [{ item with playerName := username },
       { name := dropLastChars item.name 8
         tier := item.tier
         rarity := item.rarity
         count := item.count * q
         playerId := item.playerId
         location := item.location
         baseItem := getBaseItemName (dropLastChars item.name 8)
         tag := (inferTagForBaseItem (dropLastChars item.name 8)).getD item.tag
         playerName := username
         fromPackage := true }] := by
  have hpkg : jsEndsWith item.name " Package" = true :=
    jsEndsWith_trans item.name sfx " Package" hends (packageTable_ends (sfx, q) hmem)
  have hinfo := getPackageInfo_of_table item.name sfx q hmem hends
  simp [getAllItems, collectBaseItemTags, hpkg, hinfo, mapGet, Option.orElse]

/-- C5: an item whose name ends in a suffix of the package table is expanded
into exactly one synthetic item: name = package name minus its last 8
characters (" Package"), count = original count times the table quantity,
`fromPackage = true`; and the spec's concrete example {Simple Clay Lump
Package, count 3} expands to {Simple Clay Lump, count 1500, fromPackage}. -/
theorem package_expansion_spec :
    (∀ (item : Item) (sfx : String) (q : ℚ), (sfx, q) ∈ PACKAGE_CONTENTS →
      jsEndsWith item.name sfx = true →
      getPackageInfo item.name = some (dropLastChars item.name 8, q)) ∧
    (∀ (entityId username : String) (item : Item) (sfx : String) (q : ℚ),
      (sfx, q) ∈ PACKAGE_CONTENTS → jsEndsWith item.name sfx = true →
      getAllItems true [⟨entityId, username, [item]⟩] =
        [{ item with playerName := username },
         { name := dropLastChars item.name 8
           tier := item.tier
           rarity := item.rarity
           count := item.count * q
           playerId := item.playerId
           location := item.location
           baseItem := getBaseItemName (dropLastChars item.name 8)
           tag := (inferTagForBaseItem (dropLastChars item.name 8)).getD item.tag
           playerName := username
           fromPackage := true }]) ∧
    getAllItems true [⟨"p1", "Alice", [clayPackageItem]⟩] =
      [{ clayPackageItem with playerName := "Alice" },
       { name := "Simple Clay Lump"
         tier := 2
         rarity := "Common"
         count := 1500
         playerId := "p1"
         location := "Storage"
         baseItem := "Clay Lump"
         tag := "Construction"
         playerName := "Alice"
         fromPackage := true }] := by
  refine ⟨?_, ?_, ?_⟩
  · intro item sfx q hmem hends
    exact getPackageInfo_of_table item.name sfx q hmem hends
  · intro entityId username item sfx q hmem hends
    exact getAllItems_single_package entityId username item sfx q hmem hends
  · rw [getAllItems_single_package "p1" "Alice" clayPackageItem "Clay Lump Package" 500
      (by decide) (by decide)]
    have hc : clayPackageItem.count * (500 : ℚ) = 1500 := by
      show (3 : ℚ) * 500 = 1500
      norm_num
    rw [← hc]
    rfl

/-- Closed instance of `package_expansion_spec` at the Clay Lump package. -/
theorem package_expansion_spec_witness :
    getPackageInfo clayPackageItem.name = some (dropLastChars clayPackageItem.name 8, 500) :=
  package_expansion_spec.1 clayPackageItem "Clay Lump Package" 500 (by decide) (by decide)

/-! ### Aggregation lemmas -/

/-- Two items with equal aggregation keys merge into one aggregate. -/
theorem aggregateItems_pair_merge (gb : Bool) (i j : Item) (h : aggKey gb i = aggKey gb j) :
    aggregateItems gb [i, j] =
      [⟨{ i with count := i.count + j.count },
        (if j.playerName ≠ "" then
          bumpQty (if i.playerName ≠ "" then [(i.playerName, i.count)] else [])
            j.playerName j.count
         else (if i.playerName ≠ "" then [(i.playerName, i.count)] else []))⟩] := by
  simp [aggregateItems, h]

/-- Two items with different aggregation keys stay separate. -/
theorem aggregateItems_pair_separate (gb : Bool) (i j : Item) (h : aggKey gb i ≠ aggKey gb j) :
    aggregateItems gb [i, j] =
      [⟨i, if i.playerName ≠ "" then [(i.playerName, i.count)] else []⟩,
       ⟨j, if j.playerName ≠ "" then [(j.playerName, j.count)] else []⟩] := by
  have hb : (aggKey gb i == aggKey gb j) = false := beq_eq_false_iff_ne.mpr h
  simp [aggregateItems, hb]

/-- C4 (amended): two input items land in the same aggregate iff their joined
key strings (name|tier|rarity, plus |playerName when grouping by player) are
equal; field agreement implies key equality, so agreeing items always merge,
with counts summed and per-player quantities tracked; and the spec's Ingot
example yields one aggregate with count 12 and playerQuantities {A:5, B:7}. -/
theorem aggregate_merge_spec (gb : Bool) (i j : Item) :
    ((aggregateItems gb [i, j]).length = 1 ↔ aggKey gb i = aggKey gb j) ∧
    (aggKey gb i = aggKey gb j →
      ∃ a : AggItem, aggregateItems gb [i, j] = [a] ∧ a.count = i.count + j.count ∧
        (i.playerName ≠ "" → j.playerName ≠ "" → i.playerName ≠ j.playerName →
          a.playerQuantities = [(i.playerName, i.count), (j.playerName, j.count)])) ∧
    (gb = false → i.name = j.name → i.tier = j.tier → i.rarity = j.rarity →
      aggKey gb i = aggKey gb j) ∧
    aggregateItems false [ingotItem "pa" "A" 5, ingotItem "pb" "B" 7] =
      [⟨{ ingotItem "pa" "A" 5 with count := 12 }, [("A", 5), ("B", 7)]⟩] := by
  refine ⟨?_, ?_, ?_, ?_⟩
  · constructor
    · intro hlen
      by_contra hne
      rw [aggregateItems_pair_separate gb i j hne] at hlen
      simp at hlen
    · intro h
      rw [aggregateItems_pair_merge gb i j h]
      rfl
  · intro h
    refine ⟨_, aggregateItems_pair_merge gb i j h, rfl, ?_⟩
    intro hi hj hne
    show (if j.playerName ≠ "" then
        bumpQty (if i.playerName ≠ "" then [(i.playerName, i.count)] else [])
          j.playerName j.count
      else (if i.playerName ≠ "" then [(i.playerName, i.count)] else [])) = _
    rw [if_pos hj, if_pos hi]
    unfold bumpQty
    have hb : (i.playerName == j.playerName) = false := beq_eq_false_iff_ne.mpr hne
    simp [hb]
  · intro hgb h1 h2 h3
    simp [aggKey, hgb, h1, h2, h3]
  · have hk : aggKey false (ingotItem "pa" "A" 5) = aggKey false (ingotItem "pb" "B" 7) := by
      decide
    rw [aggregateItems_pair_merge false (ingotItem "pa" "A" 5) (ingotItem "pb" "B" 7) hk]
    have h12 : (5 : ℚ) + 7 = 12 := by norm_num
    rw [← h12]
    rfl

/-- The C4 claim as frozen is false: these two items disagree on name, tier
and rarity, yet the '|'-joined keys collide ("A|1|2|C"), so `aggregateItems`
merges them into a single aggregate. -/
theorem aggregate_merge_counterexample :
    (aggregateItems false [pipeItemA, pipeItemB]).length = 1 ∧
    pipeItemA.name ≠ pipeItemB.name ∧ pipeItemA.tier ≠ pipeItemB.tier ∧
    pipeItemA.rarity ≠ pipeItemB.rarity ∧
    aggKey false pipeItemA = aggKey false pipeItemB := by
  refine ⟨?_, by decide, by decide, by decide, by decide⟩
  have hk : aggKey false pipeItemA = aggKey false pipeItemB := by decide
  rw [aggregateItems_pair_merge false pipeItemA pipeItemB hk]
  rfl

/-- Closed instance of `aggregate_merge_spec` at the Ingot example. -/
theorem aggregate_merge_spec_witness :
    aggKey false (ingotItem "pa" "A" 5) = aggKey false (ingotItem "pb" "B" 7) ∧
    (aggregateItems false [ingotItem "pa" "A" 5, ingotItem "pb" "B" 7]).length = 1 := by
  have h : aggKey false (ingotItem "pa" "A" 5) = aggKey false (ingotItem "pb" "B" 7) := by
    decide
  exact ⟨h, (aggregate_merge_spec false (ingotItem "pa" "A" 5) (ingotItem "pb" "B" 7)).1.mpr h⟩

/-! ### Cheapest-order lemmas -/

theorem foldl_min_aux (xs : List Int) : ∀ c : Int,
    xs.foldl
      (fun acc p => match acc with
        | none => some p
        | some c2 => if p < c2 then some p else some c2)
      (some c) = some (xs.foldl min c) := by
  induction xs with
  | nil => intro c; rfl
  | cons x t ih =>
    intro c
    have hstep : (if x < c then some x else some c) = some (min c x) := by
      split_ifs with hxc
      · rw [min_eq_right (le_of_lt hxc)]
      · rw [min_eq_left (le_of_not_lt hxc)]
    simp only [List.foldl_cons]
    show t.foldl _ (if x < c then some x else some c) = some (t.foldl min (min c x))
    rw [hstep]
    exact ih (min c x)

theorem cheapestPriceFold_cons (x : Int) (xs : List Int) :
    cheapestPriceFold (x :: xs) = some (xs.foldl min x) := by
  unfold cheapestPriceFold
  simp only [List.foldl_cons]
  exact foldl_min_aux xs x

theorem foldl_min_le_init (xs : List Int) : ∀ c : Int, xs.foldl min c ≤ c := by
  induction xs with
  | nil => intro c; exact le_refl c
  | cons x t ih =>
    intro c
    simp only [List.foldl_cons]
    exact le_trans (ih (min c x)) (min_le_left c x)

theorem foldl_min_le_mem (xs : List Int) : ∀ (c y : Int), y ∈ xs → xs.foldl min c ≤ y := by
  induction xs with
  | nil => intro c y hy; simp at hy
  | cons x t ih =>
    intro c y hy
    simp only [List.foldl_cons]
    rcases List.mem_cons.mp hy with rfl | hy2
    · exact le_trans (foldl_min_le_init t (min c y)) (min_le_right c y)
    · exact ih (min c x) y hy2

theorem foldl_min_mem (xs : List Int) : ∀ c : Int, xs.foldl min c = c ∨ xs.foldl min c ∈ xs := by
  induction xs with
  | nil => intro c; exact Or.inl rfl
  | cons x t ih =>
    intro c
    simp only [List.foldl_cons]
    rcases ih (min c x) with h | h
    · rcases le_total c x with hcx | hxc
      · rw [h, min_eq_left hcx]
        exact Or.inl rfl
      · rw [h, min_eq_right hxc]
        exact Or.inr (List.mem_cons_self x t)
    · exact Or.inr (List.mem_cons_of_mem x h)

/-- C8: after `calculateCheapestOrders`, an order's cheapest flag is true iff
its price equals the minimum listed price of its item's fetched order book
(every order tied at the minimum included); an empty book (the fold's
`Infinity` start value) flags nothing. -/
theorem cheapest_flag_spec (orders : List SellOrder) (books : String → List Int)
    (o2 : SellOrder) (ho : o2 ∈ calculateCheapestOrders orders books) :
    (books o2.itemId = [] → o2.isCheapest = some false) ∧
    (∀ m : Int, m ∈ books o2.itemId → (∀ x ∈ books o2.itemId, m ≤ x) →
      (o2.isCheapest = some true ↔ o2.price = m)) := by
  obtain ⟨o, homem, rfl⟩ := List.mem_map.mp ho
  constructor
  · intro hempty
    show some (cheapestPriceFold (books o.itemId) == some o.price) = some false
    rw [show books o.itemId = [] from hempty]
    rfl
  · intro m hm hmin
    have hne : books o.itemId ≠ [] := by
      intro hc
      rw [hc] at hm
      simp at hm
    obtain ⟨x, xs, hcons⟩ := List.exists_cons_of_ne_nil hne
    have hfold : cheapestPriceFold (books o.itemId) = some (xs.foldl min x) := by
      rw [hcons]
      exact cheapestPriceFold_cons x xs
    have hmem : xs.foldl min x ∈ books o.itemId := by
      rcases foldl_min_mem xs x with h | h
      · rw [hcons, h]
        exact List.mem_cons_self x xs
      · rw [hcons]
        exact List.mem_cons_of_mem x h
    have hle : ∀ y ∈ books o.itemId, xs.foldl min x ≤ y := by
      intro y hy
      rw [hcons] at hy
      rcases List.mem_cons.mp hy with rfl | hy2
      · exact foldl_min_le_init xs y
      · exact foldl_min_le_mem xs x y hy2
    have hmeq : xs.foldl min x = m := le_antisymm (hle m hm) (hmin _ hmem)
    show some (cheapestPriceFold (books o.itemId) == some o.price) = some true ↔ o.price = m
    rw [hfold, hmeq]
    constructor
    · intro hflag
      have := Option.some.inj hflag
      simp only [beq_iff_eq, Option.some.injEq] at this
      exact this.symm
    · intro hp
      simp [hp]

/-- Closed instance of `cheapest_flag_spec`: with book prices [5, 5, 7, 9],
the order priced 5 is flagged cheapest iff its price is the minimum 5. -/
theorem cheapest_flag_spec_witness :
    (⟨"it", 5, some true⟩ : SellOrder).isCheapest = some true ↔
      (⟨"it", 5, some true⟩ : SellOrder).price = 5 :=
  (cheapest_flag_spec [⟨"it", 5, none⟩, ⟨"it", 7, none⟩] (fun _ => [5, 5, 7, 9])
      ⟨"it", 5, some true⟩ (by decide)).2 5 (by decide) (by decide)

end BitcraftInventory
